import Mathlib

/-!
Shallow embedding of the personal-assistant chatbot core
(`chatbot_env/memory.py` and `chatbot_env/profiles.py`).

Text is modelled as `List Char`.  Python relevance scores (floats obtained
by dividing two small integers with a common denominator per query) are
modelled as `ℚ`; all observable comparisons of such scores coincide with
the rational comparisons, since every score of a given query shares the
same positive denominator and the numerators are tiny integers.
-/

set_option maxHeartbeats 1000000

namespace ChatbotEnv

/-- Models Python regex class `\w` (ASCII reading): letters, digits, underscore. -/
def isWordChar (c : Char) : Bool := c.isAlphanum || c = '_'

/-- Models Python whitespace (`\s`, `str.split`, `str.strip`). -/
def isSpaceChar (c : Char) : Bool := c.isWhitespace

/-- Models Python `str.strip()`: drop leading and trailing whitespace. -/
def stripChars (l : List Char) : List Char :=
  ((l.dropWhile isSpaceChar).reverse.dropWhile isSpaceChar).reverse

/-- Helper for `splitWords`: accumulates the current word (reversed). -/
def wordsAux : List Char → List Char → List (List Char)
  | [], acc => if acc.isEmpty then [] else [acc.reverse]
  | c :: cs, acc =>
    if isSpaceChar c then
      if acc.isEmpty then wordsAux cs [] else acc.reverse :: wordsAux cs []
    else wordsAux cs (c :: acc)

/-- Models Python `str.split()` with no argument: split on whitespace runs,
no empty tokens. -/
def splitWords (l : List Char) : List (List Char) := wordsAux l []

/-- Models `re.sub(r'[^\w\s]', '', text.lower())`: lower-case, then drop every
character that is neither a word character nor whitespace. -/
def normalizeText (l : List Char) : List Char :=
  (l.map Char.toLower).filter (fun c => isWordChar c || isSpaceChar c)

/-- Bool test: `needle` is an initial segment of `haystack`. -/
def listStarts : List Char → List Char → Bool
  | [], _ => true
  | _ :: _, [] => false
  | c :: cs, d :: ds => c == d && listStarts cs ds

/-- Models the Python substring operator `needle in haystack`. -/
def containsSeq (needle : List Char) : List Char → Bool
  | [] => needle.isEmpty
  | c :: rest => listStarts needle (c :: rest) || containsSeq needle rest

theorem listStarts_iff (n : List Char) : ∀ h : List Char,
    listStarts n h = true ↔ ∃ t, n ++ t = h := by
  induction n with
  | nil =>
    intro h
    simp [listStarts]
  | cons c cs ih =>
    intro h
    cases h with
    | nil =>
      simp [listStarts]
    | cons d ds =>
      constructor
      · intro hs
        simp only [listStarts, Bool.and_eq_true, beq_iff_eq] at hs
        obtain ⟨rfl, hs⟩ := hs
        obtain ⟨t, rfl⟩ := (ih ds).mp hs
        exact ⟨t, rfl⟩
      · rintro ⟨t, he⟩
        simp only [List.cons_append, List.cons.injEq] at he
        obtain ⟨rfl, he⟩ := he
        have hrec : listStarts cs ds = true := (ih ds).mpr ⟨t, he⟩
        simp [listStarts, hrec]

theorem containsSeq_iff (n : List Char) : ∀ h : List Char,
    containsSeq n h = true ↔ ∃ s t, s ++ n ++ t = h := by
  intro h
  induction h with
  | nil =>
    simp only [containsSeq, List.isEmpty_iff]
    constructor
    · rintro rfl
      exact ⟨[], [], rfl⟩
    · rintro ⟨s, t, he⟩
      rcases List.append_eq_nil.mp he with ⟨h1, -⟩
      exact (List.append_eq_nil.mp h1).2
  | cons c rest ih =>
    simp only [containsSeq, Bool.or_eq_true]
    constructor
    · rintro (hs | hs)
      · obtain ⟨t, he⟩ := (listStarts_iff n (c :: rest)).mp hs
        exact ⟨[], t, by simpa using he⟩
      · obtain ⟨s, t, he⟩ := ih.mp hs
        exact ⟨c :: s, t, by simp [he]⟩
    · rintro ⟨s, t, he⟩
      cases s with
      | nil =>
        left
        exact (listStarts_iff n (c :: rest)).mpr ⟨t, by simpa using he⟩
      | cons c' s' =>
        right
        simp only [List.cons_append, List.cons.injEq] at he
        exact ih.mpr ⟨s', t, he.2⟩

/-- A conversation record as constructed by `save_conversation` and stored in
`conversation_history.json` (field names follow the source). -/
structure Conv where
  user : List Char
  assistant : List Char
  domain : String
  timestamp : String
  date : String
  user_word_count : ℕ
  assistant_word_count : ℕ
deriving DecidableEq

/-- The record literal built in `save_conversation` (memory.py lines 11-19):
texts are stripped, word counts are taken on the raw inputs. -/
def mkConversation (u a : List Char) (domain timestamp date : String) : Conv :=
  { user := stripChars u
    assistant := stripChars a
    domain := domain
    timestamp := timestamp
    date := date
    user_word_count := (splitWords u).length
    assistant_word_count := (splitWords a).length }

/-- The truncation step of `save_conversation` (memory.py lines 29-30):
`if len(history) > 100: history = history[-100:]`. -/
def capLog (l : List Conv) : List Conv :=
  if 100 < l.length then l.drop (l.length - 100) else l

/-- `save_conversation` (memory.py lines 6-39), with persistence modelled as a
state transition on the loaded log; `none` is the early-return failure on an
empty input text. -/
def saveConversation (log : List Conv) (u a : List Char)
    (domain timestamp date : String) : Option (List Conv) :=
  if u.isEmpty || a.isEmpty then none
  else some (capLog (log ++ [mkConversation u a domain timestamp date]))

/-- `get_recent_conversations` (memory.py lines 76-84). -/
def getRecentConversations (n : Int) (log : List Conv) : List Conv :=
  if log.isEmpty then []
  else
    let c : Int := max 1 (min n (log.length : Int))
    log.drop (log.length - c.toNat)

/-- The cleaned query tokens (memory.py lines 95-96): normalize, split on
whitespace, keep tokens of length > 2. -/
def queryWords (q : List Char) : List (List Char) :=
  (splitWords (normalizeText q)).filter (fun w => 2 < w.length)

/-- The normalized combined record text (memory.py lines 103-104). -/
def recordNorm (conv : Conv) : List Char :=
  normalizeText (conv.user ++ ' ' :: conv.assistant)

/-- The match counter of `find_relevant_conversations` (memory.py lines
107-110): one count per query token occurrence whose token appears as a
substring of the normalized record text. -/
def matchCount (q : List Char) (conv : Conv) : ℕ :=
  (queryWords q).countP (fun w => containsSeq w (recordNorm conv))

/-- The relevance score (memory.py line 114): matches / len(query_words). -/
def relevanceScore (conv : Conv) (q : List Char) : ℚ :=
  (matchCount q conv : ℚ) / ((queryWords q).length : ℚ)

/-- The `relevant` list built by the loop of `find_relevant_conversations`
(memory.py lines 101-115), enriched with each record's position in the log so
that the stable tie-break is expressible. -/
def scoredEntries (history : List Conv) (q : List Char) : List (ℕ × Conv × ℚ) :=
  history.enum.filterMap (fun p =>
    if 0 < matchCount q p.2 then some (p.1, p.2, relevanceScore p.2 q) else none)

/-- The comparison used by the sort `relevant.sort(key=lambda x: x[1],
reverse=True)` (memory.py line 118); a stable insertion sort with this
relation is exactly Python's stable descending sort by score. -/
def relLE (a b : ℕ × Conv × ℚ) : Prop := b.2.2 ≤ a.2.2

instance : DecidableRel relLE := fun a b => inferInstanceAs (Decidable (b.2.2 ≤ a.2.2))

/-- The strict order "higher score first, ties by earlier log position". -/
def keyOrd (a b : ℕ × Conv × ℚ) : Prop :=
  b.2.2 < a.2.2 ∨ (a.2.2 = b.2.2 ∧ a.1 < b.1)

/-- `find_relevant_conversations` (memory.py lines 86-122): guard empty
history/query, guard an all-short query, then stable-sort the scored entries
by score descending and return the clamped top slice, records only. -/
def findRelevantConversations (q : List Char) (maxResults : Int)
    (history : List Conv) : List Conv :=
  if history.isEmpty || q.isEmpty then []
  else if (queryWords q).isEmpty then []
  else
    ((List.insertionSort relLE (scoredEntries history q)).take
      (max 1 (min maxResults ((scoredEntries history q).length : Int))).toNat).map
      (fun e => e.2.1)

/-- One keyword's contribution to a domain score (memory.py lines 163-169):
full weight 1.0 on a whole-word match, partial weight 0.7 on a mere substring
match, 0 otherwise (uniform weight 1.0 per domain). -/
def keywordScore (kw msg : List Char) : ℚ :=
  if containsSeq kw msg then
    if containsSeq (' ' :: (kw ++ [' '])) (' ' :: (msg ++ [' '])) then 1
    else 7 / 10
  else 0

/-- The `domain_keywords` table of `classify_message_domain` (memory.py lines
132-157), in its fixed enumeration order. -/
def domainTable : List (String × List (List Char)) :=
  [("work",
    (["work", "job", "meeting", "deadline", "project", "career", "office",
      "task", "productivity", "business", "colleague", "boss", "employee",
      "salary", "promotion"]).map String.toList),
   ("family",
    (["family", "kids", "children", "spouse", "parent", "home", "dinner",
      "birthday", "vacation", "husband", "wife", "mother", "father", "son",
      "daughter"]).map String.toList),
   ("entertainment",
    (["movie", "music", "game", "book", "netflix", "fun", "hobby", "watch",
      "read", "play", "entertainment", "show", "series", "film"]).map String.toList),
   ("health",
    (["health", "exercise", "fitness", "doctor", "medical", "diet", "workout",
      "medicine", "hospital", "symptoms", "sick", "wellness"]).map String.toList),
   ("learning",
    (["learn", "study", "education", "course", "skill", "tutorial", "how to",
      "teach", "school", "university", "training", "knowledge"]).map String.toList),
   ("finance",
    (["money", "budget", "finance", "investment", "savings", "bank", "loan",
      "credit", "debt", "financial", "income", "expense"]).map String.toList)]

/-- A domain's aggregate score over the lower-cased message. -/
def domainScore (msg : List Char) (kws : List (List Char)) : ℚ :=
  (kws.map (fun kw => keywordScore kw msg)).sum

/-- The `domain_scores` mapping (memory.py lines 159-171), in table order. -/
def domainScoresOf (msg : List Char) : List (String × ℚ) :=
  domainTable.map (fun d => (d.1, domainScore msg d.2))

/-- Models Python `max(items, key=lambda x: x[1])`: scan left to right and
replace the current best only on a strictly greater score, so the first
maximal element wins. -/
def pickBest : (String × ℚ) → List (String × ℚ) → String × ℚ
  | best, [] => best
  | best, x :: xs => pickBest (if best.2 < x.2 then x else best) xs

/-- `classify_message_domain` (memory.py lines 124-179). -/
def classifyMessageDomain (msg : List Char) : String :=
  if msg.isEmpty then "general"
  else
    match domainScoresOf (msg.map Char.toLower) with
    | [] => "general"
    | s :: rest =>
      let best := pickBest s rest
      if 0 < best.2 then best.1 else "general"

/-- The statistics record of `get_conversation_stats` (memory.py lines
186-198); the count dictionaries are modelled as association lists in key
insertion order. -/
structure Stats where
  total_conversations : ℕ
  total_words : ℕ
  domains : List (String × ℕ)
  dates : List (String × ℕ)

/-- Models `d[k] = d.get(k, 0) + 1` on an insertion-ordered dictionary. -/
def bumpCount (m : List (String × ℕ)) (k : String) : List (String × ℕ) :=
  match m with
  | [] => [(k, 1)]
  | (k', v) :: rest =>
    if k' == k then (k', v + 1) :: rest else (k', v) :: bumpCount rest k

/-- The loop body of `get_conversation_stats` (memory.py lines 200-212). -/
def statsStep (s : Stats) (c : Conv) : Stats :=
  { s with
    total_words := s.total_words + c.user_word_count + c.assistant_word_count
    domains := bumpCount s.domains c.domain
    dates := bumpCount s.dates c.date }

/-- `get_conversation_stats` (memory.py lines 181-214). -/
def getConversationStats (history : List Conv) : Stats :=
  if history.isEmpty then
    { total_conversations := 0, total_words := 0, domains := [], dates := [] }
  else
    history.foldl statsStep
      { total_conversations := history.length, total_words := 0,
        domains := [], dates := [] }

/-- Sum of the counts held by a count dictionary. -/
def sumCounts (m : List (String × ℕ)) : ℕ := (m.map (fun kv => kv.2)).sum

/-- A profile record as handed to `save_user_profile`: a dictionary of string
fields. -/
def ProfileData := List (String × String)

instance : DecidableEq ProfileData := inferInstanceAs (DecidableEq (List (String × String)))

/-- Models Python `profile_data.get(field)`. -/
def getField (p : ProfileData) (k : String) : Option String :=
  (List.find? (fun kv => kv.1 == k) p).map (fun kv => kv.2)

/-- Models the truthiness test `profile_data.get(field)` used by the
validation loop: false when the field is missing or maps to the empty
string. -/
def truthyField (p : ProfileData) (k : String) : Bool :=
  match getField p k with
  | none => false
  | some s => !s.isEmpty

/-- The `required_fields` list of `save_user_profile` (profiles.py line 14). -/
def requiredFields : List String := ["name", "role", "communication_style"]

/-- `save_user_profile` (profiles.py lines 6-32): result flag plus the stored
profile document after the call (the write is modelled as a state change). -/
def saveUserProfile (p : ProfileData) (stored : Option ProfileData) :
    Bool × Option ProfileData :=
  if (List.isEmpty p) then (false, stored)
  else if requiredFields.all (fun f => truthyField p f) then (true, some p)
  else (false, stored)

/-- A JSON value, as far as the persisted conversation log needs. -/
inductive JVal where
  | jstr : String → JVal
  | jnum : Int → JVal
  | jbool : Bool → JVal
  | jnull : JVal
  | jarr : List JVal → JVal
  | jobj : List (String × JVal) → JVal

/-- Models `fields['k']` lookup on a parsed JSON object. -/
def lookupKey (fields : List (String × JVal)) (k : String) : Option JVal :=
  (List.find? (fun kv => kv.1 == k) fields).map (fun kv => kv.2)

/-- Models Python `'k' in fields` for a parsed JSON object. -/
def hasKey (fields : List (String × JVal)) (k : String) : Bool :=
  (lookupKey fields k).isSome

/-- Models `if 'k' not in conv: conv['k'] = v` (dictionary insertion keeps
existing keys, appends a missing one). -/
def setDefaultKey (fields : List (String × JVal)) (k : String) (v : JVal) :
    List (String × JVal) :=
  if hasKey fields k then fields else fields ++ [(k, v)]

/-- The backfill block of `load_conversation_history` (memory.py lines 57-63),
in source order: timestamp, then date, then domain. -/
def backfillEntry (now today : String) (fields : List (String × JVal)) :
    List (String × JVal) :=
  setDefaultKey
    (setDefaultKey (setDefaultKey fields "timestamp" (JVal.jstr now))
      "date" (JVal.jstr today))
    "domain" (JVal.jstr "general")

/-- The validation test of memory.py line 56: the entry is a dict holding
both the `user` and the `assistant` key. -/
def isValidEntry : JVal → Bool
  | JVal.jobj fields => hasKey fields "user" && hasKey fields "assistant"
  | _ => false

/-- The validation loop of `load_conversation_history` (memory.py lines
54-65). -/
def loadLoop (now today : String) : List JVal → List (List (String × JVal))
  | [] => []
  | JVal.jobj fields :: vs =>
    if hasKey fields "user" && hasKey fields "assistant" then
      backfillEntry now today fields :: loadLoop now today vs
    else loadLoop now today vs
  | _ :: vs => loadLoop now today vs

/-- `load_conversation_history` (memory.py lines 41-74) on an already parsed
document; a non-list document yields the empty log. -/
def loadConversationHistory (doc : JVal) (now today : String) :
    List (List (String × JVal)) :=
  match doc with
  | JVal.jarr l => loadLoop now today l
  | _ => []

/-- Modelled from the words of claim C1 (spec 4.2 step 3): the score counts
DISTINCT query tokens, each at most once, over the total token count.  This
definition exists only to be compared against `relevanceScore`, which follows
the source. -/
def claimRelevanceScore (conv : Conv) (q : List Char) : ℚ :=
  (((queryWords q).dedup.countP (fun w => containsSeq w (recordNorm conv))) : ℚ) /
    ((queryWords q).length : ℚ)

/-! Theorems for the claims, preceded by their supporting lemmas. -/

/-- Claim C5: a successful `save_conversation` leaves the persisted log with at
most 100 records, the retained ones being a suffix (the most recent) of the
log-plus-new-record; appending to a log already holding 100 or more records
leaves exactly 100. -/
theorem saveConversation_caps_log (log : List Conv) (u a : List Char)
    (domain timestamp date : String) (newLog : List Conv)
    (h : saveConversation log u a domain timestamp date = some newLog) :
    newLog.length ≤ 100 ∧
    newLog <:+ (log ++ [mkConversation u a domain timestamp date]) ∧
    newLog.length = min (log.length + 1) 100 ∧
    (100 ≤ log.length → newLog.length = 100) := by
  unfold saveConversation at h
  split at h
  · exact absurd h (by simp)
  · injection h with h
    subst h
    unfold capLog
    have hlen : (log ++ [mkConversation u a domain timestamp date]).length =
        log.length + 1 := by simp
    split
    · rename_i hgt
      rw [hlen] at hgt
      refine ⟨?_, List.drop_suffix _ _, ?_, ?_⟩
      · rw [List.length_drop, hlen]; omega
      · rw [List.length_drop, hlen]; omega
      · intro _; rw [List.length_drop, hlen]; omega
    · rename_i hle
      rw [hlen] at hle
      refine ⟨by omega, List.suffix_rfl, by omega, by omega⟩

/-- Demo record used by witness theorems. -/
def convDemo : Conv :=
  { user := ("hello there").toList
    assistant := ("hi").toList
    domain := "general"
    timestamp := "t"
    date := "d"
    user_word_count := 2
    assistant_word_count := 1 }

/-- Witness for C5 at a log that already holds 100 records. -/
theorem saveConversation_caps_log_witness :
    ((saveConversation (List.replicate 100 convDemo) (("hi").toList) (("yo").toList)
      "general" "t2" "d2").map List.length) = some 100 := by
  have h : saveConversation (List.replicate 100 convDemo) (("hi").toList) (("yo").toList)
      "general" "t2" "d2" =
      some (capLog (List.replicate 100 convDemo ++
        [mkConversation (("hi").toList) (("yo").toList) "general" "t2" "d2"])) := rfl
  have h2 := (saveConversation_caps_log (List.replicate 100 convDemo)
    (("hi").toList) (("yo").toList) "general" "t2" "d2" _ h).2.2.2 (by simp)
  rw [h, Option.map_some', h2]

/-- Claim C6: `get_recent_conversations n` returns a suffix of the log of
length `min (max n 1) (len log)`; nonpositive `n` behaves like 1, and `n`
at least the log length returns the whole log. -/
theorem getRecent_tail_clamped (n : Int) (log : List Conv) :
    getRecentConversations n log <:+ log ∧
    ((getRecentConversations n log).length : Int) = min (max n 1) (log.length : Int) ∧
    (n ≤ 0 → getRecentConversations n log = getRecentConversations 1 log) ∧
    ((log.length : Int) ≤ n → getRecentConversations n log = log) := by
  by_cases hl : log.isEmpty = true
  · have hnil : log = [] := List.isEmpty_iff.mp hl
    subst hnil
    refine ⟨List.suffix_rfl, by simp [getRecentConversations], ?_, ?_⟩
    · intro _; rfl
    · intro _; rfl
  · have hne : log ≠ [] := by simpa [List.isEmpty_eq_false] using hl
    have hlen : 1 ≤ log.length := List.length_pos.mpr hne
    have hrec : ∀ m : Int, getRecentConversations m log =
        log.drop (log.length - (max 1 (min m (log.length : Int))).toNat) := by
      intro m
      unfold getRecentConversations
      rw [if_neg hl]
    refine ⟨?_, ?_, ?_, ?_⟩
    · rw [hrec n]; exact List.drop_suffix _ _
    · rw [hrec n, List.length_drop]; omega
    · intro hn
      rw [hrec n, hrec 1]
      congr 1
      omega
    · intro hn
      rw [hrec n]
      have h0 : log.length - (max 1 (min n (log.length : Int))).toNat = 0 := by omega
      rw [h0, List.drop_zero]

/-- Witness for C6: a negative count behaves like 1. -/
theorem getRecent_tail_clamped_witness :
    ((-5 : Int) ≤ 0) ∧
    getRecentConversations (-5) [convDemo, convDemo] =
      getRecentConversations 1 [convDemo, convDemo] :=
  ⟨by norm_num, (getRecent_tail_clamped (-5) [convDemo, convDemo]).2.2.1 (by norm_num)⟩

/-- Claim C7: `save_user_profile` fails and leaves the stored profile
unchanged whenever a required field (name, role, communication_style) is
missing or empty. -/
theorem saveUserProfile_rejects_missing (p : ProfileData) (stored : Option ProfileData)
    (f : String) (hf : f ∈ requiredFields) (hmiss : truthyField p f = false) :
    saveUserProfile p stored = (false, stored) := by
  have hall : requiredFields.all (fun g => truthyField p g) = false := by
    rcases h : requiredFields.all (fun g => truthyField p g) with _ | _
    · rfl
    · exact absurd (List.all_eq_true.mp h f hf) (by simp [hmiss])
  by_cases hp : List.isEmpty p = true
  · simp [saveUserProfile, hp]
  · simp [saveUserProfile, hp, hall]

/-- Demo profile lacking the `role` field. -/
def profDemo : ProfileData := [("name", "Alice")]

/-- Witness for C7: a profile without `role` is rejected and the store keeps
its previous value. -/
theorem saveUserProfile_rejects_missing_witness :
    (("role" : String) ∈ requiredFields ∧ truthyField profDemo "role" = false) ∧
    saveUserProfile profDemo (some [("name", "Old")]) = (false, some [("name", "Old")]) :=
  ⟨⟨by decide, by decide⟩,
    saveUserProfile_rejects_missing profDemo (some [("name", "Old")]) "role"
      (by decide) (by decide)⟩

/-- Claim C9: the record appended by a successful `save_conversation` carries
the stripped texts and the whitespace word counts of the raw inputs. -/
theorem saveConversation_strips_and_counts (log : List Conv) (u a : List Char)
    (domain timestamp date : String) (newLog : List Conv)
    (h : saveConversation log u a domain timestamp date = some newLog) :
    ∃ r, newLog.getLast? = some r ∧
      r.user = stripChars u ∧ r.assistant = stripChars a ∧
      r.user_word_count = (splitWords u).length ∧
      r.assistant_word_count = (splitWords a).length ∧
      r.domain = domain ∧ r.timestamp = timestamp ∧ r.date = date := by
  unfold saveConversation at h
  split at h
  · exact absurd h (by simp)
  · injection h with h
    subst h
    refine ⟨mkConversation u a domain timestamp date, ?_, rfl, rfl, rfl, rfl, rfl, rfl, rfl⟩
    unfold capLog
    split
    · have hlen : (log ++ [mkConversation u a domain timestamp date]).length =
          log.length + 1 := by simp
      rw [List.drop_append_eq_append_drop, hlen]
      have h0 : log.length + 1 - 100 - log.length = 0 := by omega
      rw [h0, List.drop_zero]
      exact List.getLast?_concat _
    · exact List.getLast?_concat _

/-- Witness for C9: surrounding whitespace is stripped from the stored user
text. -/
theorem saveConversation_strips_and_counts_witness :
    ((saveConversation [] (("  hi there  ").toList) (("ok").toList) "general" "t" "d").map
      (fun nl => nl.getLast?.map Conv.user)) = some (some (("hi there").toList)) := by
  have h : saveConversation [] (("  hi there  ").toList) (("ok").toList) "general" "t" "d" =
      some (capLog ([] ++
        [mkConversation (("  hi there  ").toList) (("ok").toList) "general" "t" "d"])) := rfl
  obtain ⟨r, hr1, hr2, -⟩ :=
    saveConversation_strips_and_counts [] (("  hi there  ").toList) (("ok").toList)
      "general" "t" "d" _ h
  rw [h, Option.map_some', hr1, Option.map_some', hr2]
  rfl

theorem sumCounts_bumpCount (m : List (String × ℕ)) (k : String) :
    sumCounts (bumpCount m k) = sumCounts m + 1 := by
  induction m with
  | nil => simp [bumpCount, sumCounts]
  | cons x rest ih =>
    obtain ⟨k', v⟩ := x
    unfold bumpCount
    split
    · simp [sumCounts]
      omega
    · simp only [sumCounts, List.map_cons, List.sum_cons] at ih ⊢
      omega

theorem stats_foldl (l : List Conv) : ∀ s : Stats,
    (List.foldl statsStep s l).total_conversations = s.total_conversations ∧
    sumCounts (List.foldl statsStep s l).domains = sumCounts s.domains + l.length ∧
    sumCounts (List.foldl statsStep s l).dates = sumCounts s.dates + l.length := by
  induction l with
  | nil => intro s; simp
  | cons c cs ih =>
    intro s
    simp only [List.foldl_cons]
    obtain ⟨h1, h2, h3⟩ := ih (statsStep s c)
    refine ⟨h1, ?_, ?_⟩
    · rw [h2]
      show sumCounts (bumpCount s.domains c.domain) + cs.length =
        sumCounts s.domains + (c :: cs).length
      rw [sumCounts_bumpCount]
      simp
      omega
    · rw [h3]
      show sumCounts (bumpCount s.dates c.date) + cs.length =
        sumCounts s.dates + (c :: cs).length
      rw [sumCounts_bumpCount]
      simp
      omega

/-- Claim C10: the statistics are internally consistent: the total equals the
number of records, and also equals the sum of the per-domain counts and the
sum of the per-date counts. -/
theorem getConversationStats_consistent (history : List Conv) :
    (getConversationStats history).total_conversations = history.length ∧
    sumCounts (getConversationStats history).domains = history.length ∧
    sumCounts (getConversationStats history).dates = history.length := by
  unfold getConversationStats
  by_cases hh : history.isEmpty = true
  · have : history = [] := List.isEmpty_iff.mp hh
    subst this
    simp [sumCounts]
  · rw [if_neg hh]
    obtain ⟨h1, h2, h3⟩ := stats_foldl history
      { total_conversations := history.length, total_words := 0, domains := [], dates := [] }
    refine ⟨by rw [h1], by rw [h2]; simp [sumCounts], by rw [h3]; simp [sumCounts]⟩

theorem containsSeq_unpad (kw msg : List Char)
    (h : containsSeq (' ' :: (kw ++ [' '])) (' ' :: (msg ++ [' '])) = true) :
    containsSeq kw msg = true := by
  rw [containsSeq_iff] at h ⊢
  obtain ⟨s, t, he⟩ := h
  rcases List.eq_nil_or_concat t with rfl | ⟨t₂, c₂, rfl⟩
  · have he2 : (s ++ (' ' :: kw)) ++ [' '] = (' ' :: msg) ++ [' '] := by
      simpa [List.append_assoc] using he
    obtain ⟨he3, -⟩ := List.append_inj' he2 rfl
    cases s with
    | nil =>
      simp only [List.nil_append, List.cons.injEq] at he3
      exact ⟨[], [], by simp [he3.2]⟩
    | cons c s' =>
      simp only [List.cons_append, List.cons.injEq] at he3
      exact ⟨s' ++ [' '], [], by simp [List.append_assoc, he3.2]⟩
  · have he2 : (s ++ (' ' :: (kw ++ (' ' :: t₂)))) ++ [c₂] = (' ' :: msg) ++ [' '] := by
      simpa [List.append_assoc, List.concat_eq_append] using he
    obtain ⟨he3, -⟩ := List.append_inj' he2 rfl
    cases s with
    | nil =>
      simp only [List.nil_append, List.cons.injEq] at he3
      exact ⟨[], ' ' :: t₂, by simp [he3.2]⟩
    | cons c s' =>
      simp only [List.cons_append, List.cons.injEq] at he3
      exact ⟨s' ++ [' '], ' ' :: t₂, by simp [List.append_assoc, he3.2]⟩

/-- Claim C3: each keyword contributes 1.0 on a whole-word match (the
space-padded message contains the space-padded keyword), else 0.7 on a bare
substring match, else 0 — the two contributions are never combined, and each
contribution is one of 0, 0.7, 1. -/
theorem keywordScore_formula (kw msg : List Char) :
    keywordScore kw msg =
      (if containsSeq (' ' :: (kw ++ [' '])) (' ' :: (msg ++ [' '])) then (1 : ℚ)
       else if containsSeq kw msg then 7 / 10 else 0) ∧
    (keywordScore kw msg = 0 ∨ keywordScore kw msg = 7 / 10 ∨ keywordScore kw msg = 1) := by
  constructor
  · unfold keywordScore
    by_cases hsub : containsSeq kw msg = true
    · rw [if_pos hsub]
      by_cases hw : containsSeq (' ' :: (kw ++ [' '])) (' ' :: (msg ++ [' '])) = true
      · rw [if_pos hw, if_pos hw]
      · rw [if_neg hw, if_neg hw, if_pos hsub]
    · rw [if_neg hsub]
      have hw : ¬ containsSeq (' ' :: (kw ++ [' '])) (' ' :: (msg ++ [' '])) = true :=
        fun hc => hsub (containsSeq_unpad kw msg hc)
      rw [if_neg hw, if_neg hsub]
  · unfold keywordScore
    split
    · split
      · right; right; rfl
      · right; left; rfl
    · left; rfl

theorem keywordScore_nonneg (kw msg : List Char) : 0 ≤ keywordScore kw msg := by
  unfold keywordScore
  split
  · split
    · exact zero_le_one
    · norm_num
  · exact le_refl 0

theorem domainScore_nonneg (msg : List Char) (kws : List (List Char)) :
    0 ≤ domainScore msg kws := by
  apply List.sum_nonneg
  intro x hx
  obtain ⟨kw, -, rfl⟩ := List.mem_map.mp hx
  exact keywordScore_nonneg kw msg

theorem domainTable_keywords_nonempty :
    ∀ d ∈ domainTable, ∀ kw ∈ d.2, kw ≠ [] := by decide

theorem domainScore_nil (d : String × List (List Char)) (hd : d ∈ domainTable) :
    domainScore [] d.2 = 0 := by
  apply List.sum_eq_zero
  intro x hx
  obtain ⟨kw, hkw, rfl⟩ := List.mem_map.mp hx
  have hne : kw ≠ [] := domainTable_keywords_nonempty d hd kw hkw
  have hc : containsSeq kw [] = false := by
    rw [show containsSeq kw [] = kw.isEmpty from rfl]
    exact List.isEmpty_eq_false.mpr hne
  unfold keywordScore
  rw [if_neg (by simp [hc])]

theorem pickBest_spec : ∀ (l : List (String × ℚ)) (a : String × ℚ),
    (pickBest a l = a ∧ ∀ b ∈ l, b.2 ≤ a.2) ∨
    (∃ l₁ l₂, l = l₁ ++ pickBest a l :: l₂ ∧ a.2 < (pickBest a l).2 ∧
      (∀ b ∈ l, b.2 ≤ (pickBest a l).2) ∧ ∀ b ∈ l₁, b.2 < (pickBest a l).2) := by
  intro l
  induction l with
  | nil =>
    intro a
    left
    exact ⟨rfl, by simp⟩
  | cons x xs ih =>
    intro a
    by_cases hax : a.2 < x.2
    · have hd : pickBest a (x :: xs) = pickBest x xs := by simp [pickBest, hax]
      rcases ih x with ⟨h1, h2⟩ | ⟨l₁, l₂, he, hlt, hub, hstr⟩
      · right
        refine ⟨[], xs, ?_, ?_, ?_, ?_⟩
        · rw [hd, h1]; rfl
        · rw [hd, h1]; exact hax
        · intro b hb
          rw [hd, h1]
          rcases List.mem_cons.mp hb with rfl | hb
          · exact le_refl _
          · exact h2 b hb
        · intro b hb
          simp at hb
      · right
        refine ⟨x :: l₁, l₂, ?_, ?_, ?_, ?_⟩
        · rw [hd, List.cons_append, ← he]
        · rw [hd]; exact lt_trans hax hlt
        · intro b hb
          rw [hd]
          rcases List.mem_cons.mp hb with rfl | hb
          · exact le_of_lt hlt
          · exact hub b hb
        · intro b hb
          rw [hd]
          rcases List.mem_cons.mp hb with rfl | hb
          · exact hlt
          · exact hstr b hb
    · have hd : pickBest a (x :: xs) = pickBest a xs := by simp [pickBest, hax]
      have hxa : x.2 ≤ a.2 := le_of_not_lt hax
      rcases ih a with ⟨h1, h2⟩ | ⟨l₁, l₂, he, hlt, hub, hstr⟩
      · left
        refine ⟨by rw [hd, h1], ?_⟩
        intro b hb
        rcases List.mem_cons.mp hb with rfl | hb
        · exact hxa
        · exact h2 b hb
      · right
        refine ⟨x :: l₁, l₂, ?_, ?_, ?_, ?_⟩
        · rw [hd, List.cons_append, ← he]
        · rw [hd]; exact hlt
        · intro b hb
          rw [hd]
          rcases List.mem_cons.mp hb with rfl | hb
          · exact le_trans hxa (le_of_lt hlt)
          · exact hub b hb
        · intro b hb
          rw [hd]
          rcases List.mem_cons.mp hb with rfl | hb
          · exact lt_of_le_of_lt hxa hlt
          · exact hstr b hb

/-- Claim C4: `classify_message_domain` returns the first domain (in the
fixed table order work, family, entertainment, health, learning, finance)
whose aggregate score is maximal, provided that score is positive; when every
domain scores 0 — in particular for the empty message — it returns
"general". -/
theorem classify_picks_first_max (msg : List Char) :
    (∃ l₁ d s l₂, domainScoresOf (msg.map Char.toLower) = l₁ ++ (d, s) :: l₂ ∧
        classifyMessageDomain msg = d ∧ 0 < s ∧
        (∀ p ∈ domainScoresOf (msg.map Char.toLower), p.2 ≤ s) ∧
        (∀ p ∈ l₁, p.2 < s)) ∨
    (classifyMessageDomain msg = "general" ∧
      ∀ p ∈ domainScoresOf (msg.map Char.toLower), p.2 = 0) := by
  by_cases hm : msg.isEmpty = true
  · right
    have hnil : msg = [] := List.isEmpty_iff.mp hm
    subst hnil
    refine ⟨by simp [classifyMessageDomain], ?_⟩
    intro p hp
    simp only [List.map_nil] at hp
    obtain ⟨d, hd, rfl⟩ := List.mem_map.mp hp
    exact domainScore_nil d hd
  · obtain ⟨s0, rest, hsc⟩ :
        ∃ s0 rest, domainScoresOf (msg.map Char.toLower) = s0 :: rest := ⟨_, _, rfl⟩
    have hcl : classifyMessageDomain msg =
        (if 0 < (pickBest s0 rest).2 then (pickBest s0 rest).1 else "general") := by
      unfold classifyMessageDomain
      rw [if_neg hm, hsc]
    by_cases hpos : 0 < (pickBest s0 rest).2
    · left
      rcases pickBest_spec rest s0 with ⟨h1, h2⟩ | ⟨l₁, l₂, he, hlt, hub, hstr⟩
      · refine ⟨[], s0.1, s0.2, rest, ?_, ?_, ?_, ?_, ?_⟩
        · rw [hsc]; simp
        · rw [hcl, if_pos hpos, h1]
        · rw [h1] at hpos; exact hpos
        · intro p hp
          rw [hsc] at hp
          rcases List.mem_cons.mp hp with rfl | hp
          · exact le_refl _
          · exact h2 p hp
        · intro p hp
          simp at hp
      · refine ⟨s0 :: l₁, (pickBest s0 rest).1, (pickBest s0 rest).2, l₂, ?_, ?_, ?_, ?_, ?_⟩
        · rw [hsc, List.cons_append, ← he]
        · rw [hcl, if_pos hpos]
        · exact hpos
        · intro p hp
          rw [hsc] at hp
          rcases List.mem_cons.mp hp with rfl | hp
          · exact le_of_lt hlt
          · exact hub p hp
        · intro p hp
          rcases List.mem_cons.mp hp with rfl | hp
          · exact hlt
          · exact hstr p hp
    · right
      have hle : (pickBest s0 rest).2 ≤ 0 := le_of_not_lt hpos
      refine ⟨by rw [hcl, if_neg hpos], ?_⟩
      intro p hp
      have hnn : 0 ≤ p.2 := by
        obtain ⟨d, hd, rfl⟩ := List.mem_map.mp hp
        exact domainScore_nonneg _ _
      have hup : p.2 ≤ (pickBest s0 rest).2 := by
        rw [hsc] at hp
        rcases pickBest_spec rest s0 with ⟨h1, h2⟩ | ⟨l₁, l₂, he, hlt, hub, hstr⟩
        · rw [h1]
          rcases List.mem_cons.mp hp with rfl | hp
          · exact le_refl _
          · exact h2 p hp
        · rcases List.mem_cons.mp hp with rfl | hp
          · exact le_of_lt hlt
          · exact hub p hp
      exact le_antisymm (le_trans hup hle) hnn

theorem lookupKey_nil (k : String) : lookupKey [] k = none := rfl

theorem lookupKey_cons (x : String × JVal) (rest : List (String × JVal)) (k : String) :
    lookupKey (x :: rest) k = if x.1 == k then some x.2 else lookupKey rest k := by
  by_cases hx : (x.1 == k) = true
  · simp [lookupKey, List.find?_cons_of_pos _ hx, hx]
  · simp [lookupKey, List.find?_cons_of_neg _ hx, hx]

theorem lookupKey_append (fields l₂ : List (String × JVal)) (k : String) :
    lookupKey (fields ++ l₂) k =
      (if hasKey fields k then lookupKey fields k else lookupKey l₂ k) := by
  induction fields with
  | nil => simp [hasKey, lookupKey_nil]
  | cons x rest ih =>
    by_cases hx : (x.1 == k) = true
    · simp [List.cons_append, lookupKey_cons, hx, hasKey]
    · simp only [List.cons_append, lookupKey_cons, hx, hasKey, ih, Bool.false_eq_true,
        if_false]

theorem lookupKey_eq_none_of (fields : List (String × JVal)) (k : String)
    (h : hasKey fields k = false) : lookupKey fields k = none := by
  unfold hasKey at h
  cases hl : lookupKey fields k
  · rfl
  · rw [hl] at h
    simp at h

theorem lookupKey_setDefaultKey_self (fields : List (String × JVal)) (k : String) (v : JVal) :
    lookupKey (setDefaultKey fields k v) k =
      (if hasKey fields k then lookupKey fields k else some v) := by
  unfold setDefaultKey
  by_cases h : hasKey fields k = true
  · rw [if_pos h, if_pos h]
  · rw [if_neg h, if_neg h, lookupKey_append, if_neg h, lookupKey_cons]
    simp [lookupKey_nil]

theorem lookupKey_setDefaultKey_other (fields : List (String × JVal)) (k k' : String)
    (v : JVal) (hk : (k' == k) = false) :
    lookupKey (setDefaultKey fields k' v) k = lookupKey fields k := by
  unfold setDefaultKey
  by_cases h : hasKey fields k' = true
  · rw [if_pos h]
  · rw [if_neg h, lookupKey_append]
    by_cases h2 : hasKey fields k = true
    · rw [if_pos h2]
    · rw [if_neg h2, lookupKey_cons, hk, lookupKey_eq_none_of fields k (by
        cases hb : hasKey fields k
        · rfl
        · exact absurd hb h2)]
      simp [lookupKey_nil]

theorem hasKey_setDefaultKey_self (fields : List (String × JVal)) (k : String) (v : JVal) :
    hasKey (setDefaultKey fields k v) k = true := by
  unfold hasKey
  rw [lookupKey_setDefaultKey_self]
  by_cases h : hasKey fields k = true
  · rw [if_pos h]
    exact h
  · rw [if_neg h]
    rfl

theorem hasKey_setDefaultKey_other (fields : List (String × JVal)) (k k' : String)
    (v : JVal) (hk : (k' == k) = false) :
    hasKey (setDefaultKey fields k' v) k = hasKey fields k := by
  unfold hasKey
  rw [lookupKey_setDefaultKey_other fields k k' v hk]

theorem hasKey_setDefaultKey_mono (fields : List (String × JVal)) (k k' : String)
    (v : JVal) (h : hasKey fields k = true) :
    hasKey (setDefaultKey fields k' v) k = true := by
  by_cases hk : (k' == k) = true
  · have : k' = k := by simpa using hk
    subst this
    exact hasKey_setDefaultKey_self fields k' v
  · rw [hasKey_setDefaultKey_other fields k k' v (by
      cases hb : (k' == k)
      · rfl
      · exact absurd hb hk)]
    exact h

theorem backfillEntry_keys (now today : String) (fields : List (String × JVal)) :
    hasKey (backfillEntry now today fields) "timestamp" = true ∧
    hasKey (backfillEntry now today fields) "date" = true ∧
    hasKey (backfillEntry now today fields) "domain" = true ∧
    (∀ k, hasKey fields k = true → hasKey (backfillEntry now today fields) k = true) := by
  unfold backfillEntry
  refine ⟨?_, ?_, ?_, ?_⟩
  · rw [hasKey_setDefaultKey_other _ _ _ _ (by decide),
      hasKey_setDefaultKey_other _ _ _ _ (by decide)]
    exact hasKey_setDefaultKey_self _ _ _
  · rw [hasKey_setDefaultKey_other _ _ _ _ (by decide)]
    exact hasKey_setDefaultKey_self _ _ _
  · exact hasKey_setDefaultKey_self _ _ _
  · intro k hk
    exact hasKey_setDefaultKey_mono _ _ _ _
      (hasKey_setDefaultKey_mono _ _ _ _ (hasKey_setDefaultKey_mono _ _ _ _ hk))

theorem backfillEntry_defaults (now today : String) (fields : List (String × JVal)) :
    (hasKey fields "timestamp" = false →
      lookupKey (backfillEntry now today fields) "timestamp" = some (JVal.jstr now)) ∧
    (hasKey fields "date" = false →
      lookupKey (backfillEntry now today fields) "date" = some (JVal.jstr today)) ∧
    (hasKey fields "domain" = false →
      lookupKey (backfillEntry now today fields) "domain" = some (JVal.jstr "general")) := by
  unfold backfillEntry
  refine ⟨?_, ?_, ?_⟩
  · intro h
    rw [lookupKey_setDefaultKey_other _ _ _ _ (by decide),
      lookupKey_setDefaultKey_other _ _ _ _ (by decide),
      lookupKey_setDefaultKey_self, if_neg (by simp [h])]
  · intro h
    rw [lookupKey_setDefaultKey_other _ _ _ _ (by decide),
      lookupKey_setDefaultKey_self,
      if_neg (by simp [hasKey_setDefaultKey_other _ _ _ _ (by decide : (("timestamp" : String) == "date") = false), h])]
  · intro h
    rw [lookupKey_setDefaultKey_self,
      if_neg (by simp [hasKey_setDefaultKey_other _ _ _ _ (by decide : (("date" : String) == "domain") = false),
        hasKey_setDefaultKey_other _ _ _ _ (by decide : (("timestamp" : String) == "domain") = false), h])]

theorem loadLoop_forall₂ (now today : String) (l : List JVal) :
    List.Forall₂
      (fun v e => ∃ fields, v = JVal.jobj fields ∧ e = backfillEntry now today fields)
      (l.filter isValidEntry) (loadLoop now today l) := by
  induction l with
  | nil => exact List.Forall₂.nil
  | cons v vs ih =>
    cases v with
    | jobj fields =>
      by_cases hv : (hasKey fields "user" && hasKey fields "assistant") = true
      · simpa [loadLoop, List.filter_cons, isValidEntry, hv] using
          List.Forall₂.cons ⟨fields, rfl, rfl⟩ ih
      · simpa [loadLoop, List.filter_cons, isValidEntry, hv] using ih
    | jstr s => simpa [loadLoop, List.filter_cons, isValidEntry] using ih
    | jnum n => simpa [loadLoop, List.filter_cons, isValidEntry] using ih
    | jbool b => simpa [loadLoop, List.filter_cons, isValidEntry] using ih
    | jnull => simpa [loadLoop, List.filter_cons, isValidEntry] using ih
    | jarr l2 => simpa [loadLoop, List.filter_cons, isValidEntry] using ih

theorem loadLoop_keys (now today : String) : ∀ (l : List JVal) (e : List (String × JVal)),
    e ∈ loadLoop now today l →
    hasKey e "user" = true ∧ hasKey e "assistant" = true ∧
    hasKey e "timestamp" = true ∧ hasKey e "date" = true ∧ hasKey e "domain" = true := by
  intro l
  induction l with
  | nil =>
    intro e he
    simp [loadLoop] at he
  | cons v vs ih =>
    intro e he
    cases v with
    | jobj fields =>
      by_cases hv : (hasKey fields "user" && hasKey fields "assistant") = true
      · rw [show loadLoop now today (JVal.jobj fields :: vs) =
            backfillEntry now today fields :: loadLoop now today vs from by
            simp [loadLoop, hv]] at he
        rcases List.mem_cons.mp he with rfl | he
        · obtain ⟨hu, ha⟩ : hasKey fields "user" = true ∧ hasKey fields "assistant" = true := by
            simpa using hv
          obtain ⟨ht, hdt, hdm, hmono⟩ := backfillEntry_keys now today fields
          exact ⟨hmono "user" hu, hmono "assistant" ha, ht, hdt, hdm⟩
        · exact ih e he
      · rw [show loadLoop now today (JVal.jobj fields :: vs) = loadLoop now today vs from by
            simp [loadLoop, hv]] at he
        exact ih e he
    | jstr s => exact ih e he
    | jnum n => exact ih e he
    | jbool b => exact ih e he
    | jnull => exact ih e he
    | jarr l2 => exact ih e he

/-- A persisted log document holding one entry whose user and assistant texts
are both empty strings. -/
def emptyTextDoc : JVal :=
  JVal.jarr [JVal.jobj [("user", JVal.jstr ""), ("assistant", JVal.jstr "")]]

/-- Claim C8 counterexample: `load_conversation_history` keeps an entry whose
user and assistant texts are empty — validity on load only checks that the
`user` and `assistant` keys are present, not that the texts are non-empty. -/
theorem loadHistory_keeps_empty_text :
    loadConversationHistory emptyTextDoc "T" "D" =
      [[("user", JVal.jstr ""), ("assistant", JVal.jstr ""),
        ("timestamp", JVal.jstr "T"), ("date", JVal.jstr "D"),
        ("domain", JVal.jstr "general")]] ∧
    lookupKey [("user", JVal.jstr ""), ("assistant", JVal.jstr ""),
        ("timestamp", JVal.jstr "T"), ("date", JVal.jstr "D"),
        ("domain", JVal.jstr "general")] "user" = some (JVal.jstr "") :=
  ⟨rfl, rfl⟩

/-- Claim C8 (amended): on a list document, `load_conversation_history` keeps
exactly the entries that are objects holding both the `user` and the
`assistant` key (regardless of the texts being empty), drops every other
entry instead of failing the read, and backfills a missing domain, timestamp
or date with the defaults general / now / today. -/
theorem loadHistory_filters_and_backfills (l : List JVal) (now today : String) :
    List.Forall₂
      (fun v e => ∃ fields, v = JVal.jobj fields ∧ e = backfillEntry now today fields)
      (l.filter isValidEntry) (loadConversationHistory (JVal.jarr l) now today) ∧
    (∀ e ∈ loadConversationHistory (JVal.jarr l) now today,
      hasKey e "user" = true ∧ hasKey e "assistant" = true ∧
      hasKey e "timestamp" = true ∧ hasKey e "date" = true ∧ hasKey e "domain" = true) ∧
    (∀ fields : List (String × JVal),
      (hasKey fields "timestamp" = false →
        lookupKey (backfillEntry now today fields) "timestamp" = some (JVal.jstr now)) ∧
      (hasKey fields "date" = false →
        lookupKey (backfillEntry now today fields) "date" = some (JVal.jstr today)) ∧
      (hasKey fields "domain" = false →
        lookupKey (backfillEntry now today fields) "domain" = some (JVal.jstr "general"))) := by
  refine ⟨loadLoop_forall₂ now today l, ?_, fun fields => backfillEntry_defaults now today fields⟩
  intro e he
  exact loadLoop_keys now today l e he

/-- Witness for the amended C8: an entry without a `domain` key gets the
default domain `general`. -/
theorem loadHistory_filters_and_backfills_witness :
    hasKey [(("user" : String), JVal.jstr "a")] "domain" = false ∧
    lookupKey (backfillEntry "T" "D" [(("user" : String), JVal.jstr "a")]) "domain" =
      some (JVal.jstr "general") :=
  ⟨rfl, (((loadHistory_filters_and_backfills [] "T" "D").2.2
    [(("user" : String), JVal.jstr "a")]).2.2) rfl⟩

theorem enumFrom_fst_le (l : List Conv) : ∀ (n : ℕ) (p : ℕ × Conv),
    p ∈ List.enumFrom n l → n ≤ p.1 := by
  induction l with
  | nil =>
    intro n p hp
    simp [List.enumFrom] at hp
  | cons x xs ih =>
    intro n p hp
    rw [show List.enumFrom n (x :: xs) = (n, x) :: List.enumFrom (n + 1) xs from rfl] at hp
    rcases List.mem_cons.mp hp with rfl | hp
    · exact le_refl n
    · exact le_trans (Nat.le_succ n) (ih (n + 1) p hp)

theorem pairwise_fst_lt_enumFrom (l : List Conv) : ∀ n : ℕ,
    (List.enumFrom n l).Pairwise (fun a b => a.1 < b.1) := by
  induction l with
  | nil =>
    intro n
    simp [List.enumFrom]
  | cons x xs ih =>
    intro n
    rw [show List.enumFrom n (x :: xs) = (n, x) :: List.enumFrom (n + 1) xs from rfl]
    refine List.pairwise_cons.mpr ⟨?_, ih (n + 1)⟩
    intro p hp
    exact lt_of_lt_of_le (Nat.lt_succ_self n) (enumFrom_fst_le xs (n + 1) p hp)

theorem scoredEntries_pairwise_fst (history : List Conv) (q : List Char) :
    (scoredEntries history q).Pairwise (fun a b => a.1 < b.1) := by
  unfold scoredEntries
  refine List.Pairwise.filterMap _ ?_
    (pairwise_fst_lt_enumFrom history 0)
  intro a a' hR b hb b' hb'
  rw [Option.mem_def] at hb hb'
  by_cases hma : 0 < matchCount q a.2
  · by_cases hma' : 0 < matchCount q a'.2
    · rw [if_pos hma] at hb
      rw [if_pos hma'] at hb'
      injection hb with hb
      injection hb' with hb'
      rw [← hb, ← hb']
      exact hR
    · rw [if_neg hma'] at hb'
      exact absurd hb' (by simp)
  · rw [if_neg hma] at hb
    exact absurd hb (by simp)

theorem pairwise_keyOrd_orderedInsert (x : ℕ × Conv × ℚ) :
    ∀ l : List (ℕ × Conv × ℚ), l.Pairwise keyOrd → (∀ z ∈ l, x.1 < z.1) →
      (List.orderedInsert relLE x l).Pairwise keyOrd := by
  intro l
  induction l with
  | nil =>
    intro _ _
    simp [List.orderedInsert]
  | cons y ys ih =>
    intro hl hx
    have hE : List.orderedInsert relLE x (y :: ys) =
        if relLE x y then x :: y :: ys else y :: List.orderedInsert relLE x ys := rfl
    rw [hE]
    by_cases hr : relLE x y
    · rw [if_pos hr]
      refine List.pairwise_cons.mpr ⟨?_, hl⟩
      intro z hz
      have hyx : y.2.2 ≤ x.2.2 := hr
      rcases List.mem_cons.mp hz with rfl | hz
      · rcases lt_or_eq_of_le hyx with hlt | heq
        · exact Or.inl hlt
        · exact Or.inr ⟨heq.symm, hx z (by simp)⟩
      · have hyz := (List.pairwise_cons.mp hl).1 z hz
        rcases hyz with hlt | ⟨heq, hidx⟩
        · exact Or.inl (lt_of_lt_of_le hlt hyx)
        · rcases lt_or_eq_of_le hyx with hlt2 | heq2
          · exact Or.inl (heq ▸ hlt2)
          · exact Or.inr ⟨heq2.symm.trans heq, hx z (List.mem_cons_of_mem y hz)⟩
    · rw [if_neg hr]
      have hxy : x.2.2 < y.2.2 := not_le.mp hr
      refine List.pairwise_cons.mpr
        ⟨?_, ih (List.pairwise_cons.mp hl).2 (fun z hz => hx z (List.mem_cons_of_mem y hz))⟩
      intro z hz
      rcases (List.mem_orderedInsert relLE).mp hz with rfl | hz
      · exact Or.inl hxy
      · exact (List.pairwise_cons.mp hl).1 z hz

theorem pairwise_keyOrd_insertionSort : ∀ l : List (ℕ × Conv × ℚ),
    l.Pairwise (fun a b => a.1 < b.1) → (List.insertionSort relLE l).Pairwise keyOrd := by
  intro l
  induction l with
  | nil =>
    intro _
    simp [List.insertionSort]
  | cons x xs ih =>
    intro hl
    rw [show List.insertionSort relLE (x :: xs) =
        List.orderedInsert relLE x (List.insertionSort relLE xs) from rfl]
    apply pairwise_keyOrd_orderedInsert x _ (ih (List.pairwise_cons.mp hl).2)
    intro z hz
    exact (List.pairwise_cons.mp hl).1 z ((List.mem_insertionSort relLE).mp hz)

/-- Claim C2: when at least one record matches, `find_relevant_conversations`
returns the records of the scored list arranged by score descending with ties
in log insertion order (the unique `keyOrd`-sorted permutation), truncated to
the top `min (max maxResults 1) matchCount` entries, records only. -/
theorem findRelevant_sorted_top (q : List Char) (maxResults : Int) (history : List Conv)
    (hne : scoredEntries history q ≠ []) :
    ∃ L : List (ℕ × Conv × ℚ),
      L.Perm (scoredEntries history q) ∧ L.Pairwise keyOrd ∧
      findRelevantConversations q maxResults history =
        (L.take (min (max maxResults 1) ((scoredEntries history q).length : Int)).toNat).map
          (fun e => e.2.1) := by
  refine ⟨List.insertionSort relLE (scoredEntries history q),
    List.perm_insertionSort relLE _,
    pairwise_keyOrd_insertionSort _ (scoredEntries_pairwise_fst history q), ?_⟩
  have hh : history ≠ [] := by
    rintro rfl
    exact hne rfl
  have hqw : queryWords q ≠ [] := by
    intro h0
    apply hne
    unfold scoredEntries
    refine List.filterMap_eq_nil_iff.mpr ?_
    intro p hp
    rw [if_neg]
    simp [matchCount, h0]
  have hq : q ≠ [] := by
    intro h0
    apply hqw
    rw [h0]
    rfl
  have hlen : 1 ≤ (scoredEntries history q).length := List.length_pos.mpr hne
  have hg1 : ¬ ((history.isEmpty || q.isEmpty) = true) := by
    simp [List.isEmpty_iff, hh, hq]
  have hg2 : ¬ ((queryWords q).isEmpty = true) := by
    simpa [List.isEmpty_iff] using hqw
  unfold findRelevantConversations
  rw [if_neg hg1, if_neg hg2]
  have harg : (max 1 (min maxResults ((scoredEntries history q).length : Int))).toNat =
      (min (max maxResults 1) ((scoredEntries history q).length : Int)).toNat := by
    omega
  rw [harg]

/-- Demo record matching the demo query on both tokens. -/
def convW : Conv :=
  { user := ("meeting about project deadline").toList
    assistant := ("noted").toList
    domain := "work"
    timestamp := "t"
    date := "d"
    user_word_count := 4
    assistant_word_count := 1 }

/-- Witness for C2 on a one-record log. -/
theorem findRelevant_sorted_top_witness :
    scoredEntries [convW] (("project meeting").toList) ≠ [] ∧
    (∃ L : List (ℕ × Conv × ℚ),
      L.Perm (scoredEntries [convW] (("project meeting").toList)) ∧ L.Pairwise keyOrd ∧
      findRelevantConversations (("project meeting").toList) 2 [convW] =
        (L.take (min (max 2 1)
          ((scoredEntries [convW] (("project meeting").toList)).length : Int)).toNat).map
          (fun e => e.2.1)) :=
  ⟨by decide, findRelevant_sorted_top (("project meeting").toList) 2 [convW] (by decide)⟩

/-- Claim C1 (amended): every record returned by
`find_relevant_conversations` has at least one matching query-token
occurrence, and its relevance score — the number of matching query-token
occurrences (tokens of length > 2, counted with multiplicity as they occur in
the tokenized query, each occurrence at most once regardless of repeats in
the record) divided by the total token count — is positive; records scoring 0
are never returned. -/
theorem findRelevant_score_positive (q : List Char) (maxResults : Int)
    (history : List Conv) (conv : Conv)
    (hmem : conv ∈ findRelevantConversations q maxResults history) :
    0 < matchCount q conv ∧
    relevanceScore conv q = (matchCount q conv : ℚ) / ((queryWords q).length : ℚ) ∧
    0 < relevanceScore conv q := by
  unfold findRelevantConversations at hmem
  by_cases hg1 : (history.isEmpty || q.isEmpty) = true
  · rw [if_pos hg1] at hmem
    simp at hmem
  · rw [if_neg hg1] at hmem
    by_cases hg2 : (queryWords q).isEmpty = true
    · rw [if_pos hg2] at hmem
      simp at hmem
    · rw [if_neg hg2] at hmem
      obtain ⟨e, he, hconv⟩ := List.mem_map.mp hmem
      have he2 : e ∈ List.insertionSort relLE (scoredEntries history q) :=
        List.mem_of_mem_take he
      have he3 : e ∈ scoredEntries history q :=
        (List.perm_insertionSort relLE _).mem_iff.mp he2
      unfold scoredEntries at he3
      obtain ⟨p, hp, hpe⟩ := List.mem_filterMap.mp he3
      by_cases hmc : 0 < matchCount q p.2
      · rw [if_pos hmc] at hpe
        injection hpe with hpe
        subst hpe
        have hc2 : p.2 = conv := hconv
        subst hc2
        have hlen : 0 < (queryWords q).length := by
          rcases Nat.eq_zero_or_pos (queryWords q).length with h0 | h
          · exact absurd (by simp [List.isEmpty_iff, List.length_eq_zero.mp h0]) hg2
          · exact h
        refine ⟨hmc, rfl, ?_⟩
        unfold relevanceScore
        apply div_pos
        · exact_mod_cast hmc
        · exact_mod_cast hlen
      · rw [if_neg hmc] at hpe
        exact absurd hpe (by simp)

/-- Witness for the amended C1 on a one-record log. -/
theorem findRelevant_score_positive_witness :
    (convW ∈ findRelevantConversations (("project meeting").toList) 3 [convW]) ∧
    0 < matchCount (("project meeting").toList) convW :=
  ⟨by decide,
    (findRelevant_score_positive (("project meeting").toList) 3 [convW] convW (by decide)).1⟩

/-- Record whose combined text contains the token `cat` but not `dog`. -/
def convCat : Conv :=
  { user := ("cat").toList
    assistant := ("x").toList
    domain := "general"
    timestamp := "t"
    date := "d"
    user_word_count := 1
    assistant_word_count := 1 }

/-- Claim C1 counterexample: on the query `cat cat dog` the code scores the
record `cat / x` as 2/3 — each OCCURRENCE of a query token counts, so the
duplicated token `cat` counts twice — whereas the claimed distinct-token
score is 1/3; the two scoring functions differ. -/
theorem relevanceScore_counts_repeats :
    relevanceScore convCat (("cat cat dog").toList) = 2 / 3 ∧
    claimRelevanceScore convCat (("cat cat dog").toList) = 1 / 3 ∧
    relevanceScore convCat (("cat cat dog").toList) ≠
      claimRelevanceScore convCat (("cat cat dog").toList) := by
  have h1 : matchCount (("cat cat dog").toList) convCat = 2 := by decide
  have h2 : (queryWords (("cat cat dog").toList)).length = 3 := by decide
  have h3 : (queryWords (("cat cat dog").toList)).dedup.countP
      (fun w => containsSeq w (recordNorm convCat)) = 1 := by decide
  unfold relevanceScore claimRelevanceScore matchCount
  rw [h2, h3]
  rw [show ((queryWords (("cat cat dog").toList)).countP
    (fun w => containsSeq w (recordNorm convCat))) = 2 from h1]
  norm_num

end ChatbotEnv
